import Mathlib

/-!
Shallow embedding of `bin/classify_consensus_probabilistic.py` (NanoPulse),
the EM-based probabilistic consensus classifier, together with proofs of the
specification's claims about it.

Modelling conventions:
* Python floats are modelled by exact rationals `ℚ`; float equality tests
  (`total == 0`) become exact equality on `ℚ`.
* A Python dict whose key set is always `{0, ..., N-1}` (the prior/posterior
  tables built by `initialize_priors` and `em_step`) is modelled as a
  `List ℚ` of length `N`; the empty dict is `[]`.
* A Python function that can raise an exception which escapes it is modelled
  with an `Option` result, `none` standing for the escaping exception.
* Python string fields that may be absent (`dict.get`) are `Option String`.
-/

namespace NanoPulse

/-- A raw candidate dict as produced by `parse_kraken2`, `parse_blast` or
`parse_fastani`: `source` is always present; the remaining keys are present
or absent depending on the producing parser (absent = `none`). -/
structure Candidate where
  source : String
  taxid : Option String := none
  reference : Option String := none
  name : Option String := none
  likelihood : ℚ := 0
  confidence : Option ℚ := none
  identity : Option ℚ := none
  evalue : Option ℚ := none
  score : Option ℚ := none
  ani : Option ℚ := none
  coverage : Option ℚ := none
deriving Repr, DecidableEq, Inhabited

/-- A merged candidate dict as produced by `merge_candidates`: a copy of the
metadata of the best contributing `Candidate` plus the keys
`merged_likelihood`, `num_sources` and `all_sources` added by the merger. -/
structure MergedCandidate where
  base : Candidate
  merged_likelihood : ℚ
  num_sources : Nat
  all_sources : String
deriving Repr, DecidableEq, Inhabited

/-- `initialize_priors`: uniform prior `1/N` for each of the `N` candidates.
The argument is the list of per-candidate likelihood values (the EM code
reads each candidate only through
`candidate.get('merged_likelihood', candidate.get('likelihood', 0.0))`,
so the whole EM engine is parametrised by that list). -/
def initialize_priors (likes : List ℚ) : List ℚ :=
  likes.map (fun _ => 1 / (likes.length : ℚ))

/-- `em_step`: one EM iteration.  E-step: `unnormalized[i] = likelihood[i] *
prior[i]`; if the total is (exactly) zero, fall back to the uniform table
`1/N`, otherwise normalize.  The Python function returns the pair
`(posteriors, new_priors)` with `new_priors = posteriors.copy()`; both
components are the same table, which we return once. -/
def em_step (likes priors : List ℚ) : List ℚ :=
  let unnormalized := List.zipWith (fun l p => l * p) likes priors
  let total := unnormalized.sum
  if total = 0 then likes.map (fun _ => 1 / (likes.length : ℚ))
  else unnormalized.map (fun u => u / total)

/-- `max(abs(new_priors[i] - priors[i]) for i in range(len(candidates)))`,
the convergence statistic of `run_em_algorithm` (both tables have length
`N ≥ 1` at every use site, so the fold base `0` never wins). -/
def max_change (new old : List ℚ) : ℚ :=
  (List.zipWith (fun a b => |a - b|) new old).foldr max 0

/-- The `for iteration in range(max_iterations)` loop of
`run_em_algorithm`.  `fuel` is the number of loop iterations still allowed
and `done` the number already performed.  When the fuel is exhausted without
ever running the body (`max_iterations = 0` at top level), the Python code
executes `return posteriors, max_iterations, False` with the local variable
`posteriors` never assigned and raises `UnboundLocalError`; this is the
`none` result. -/
def run_em_loop (likes : List ℚ) (threshold : ℚ) :
    List ℚ → Nat → Nat → Option (List ℚ × Nat × Bool)
  | _, 0, _ => none
  | priors, fuel + 1, done =>
    let posteriors := em_step likes priors
    if max_change posteriors priors < threshold then
      some (posteriors, done + 1, true)
    else if fuel = 0 then
      some (posteriors, done + 1, false)
    else
      run_em_loop likes threshold posteriors fuel (done + 1)

/-- `run_em_algorithm`: empty candidate list returns `({}, 0, False)`;
otherwise run the EM loop from the uniform prior.  The result is
`some (final_posteriors, iterations, converged)`, or `none` for the
`UnboundLocalError` described at `run_em_loop`. -/
def run_em_algorithm (likes : List ℚ) (max_iterations : Nat) (threshold : ℚ) :
    Option (List ℚ × Nat × Bool) :=
  if likes.isEmpty then some ([], 0, false)
  else run_em_loop likes threshold (initialize_priors likes) max_iterations 0

/-- The index returned by `max(posteriors.items(), key=lambda x: x[1])[0]`:
Python's `max` iterates the dict in key order `0, 1, ...` and keeps the
first item whose value strictly exceeds the current best, so the result is
the first index attaining the maximum value.  `bi`/`bv` are the current
best index and value, `idx` the index of the head of the remaining list. -/
def best_index_aux : List ℚ → Nat → Nat → ℚ → Nat
  | [], _, bi, _ => bi
  | x :: xs, idx, bi, bv =>
    if bv < x then best_index_aux xs (idx + 1) idx x
    else best_index_aux xs (idx + 1) bi bv

/-- First index attaining the maximum of the list (0 on the empty list,
which `determine_classification` never reaches). -/
def best_index : List ℚ → Nat
  | [] => 0
  | x :: xs => best_index_aux xs 1 0 x

/-- The result dict of `determine_classification`, with `dict.get` on an
absent key modelled as `none`.  The degenerate branch fills
`classification`/`reason`, the normal branch the candidate fields. -/
structure Classification where
  method : String
  classification : Option String := none
  taxid : Option String := none
  name : Option String := none
  reference : Option String := none
  confidence : ℚ
  confidence_level : Option String := none
  is_novel : Bool
  reason : Option String := none
  source : Option String := none
  num_sources : Option Nat := none
  identity : Option ℚ := none
  ani : Option ℚ := none
  likelihood : Option ℚ := none
deriving Repr, DecidableEq, Inhabited

/-- `determine_classification`: degenerate branch for
`not candidates or not posteriors`, otherwise pick the first index with
maximal posterior, derive the novelty flag and the confidence tier from the
winning posterior, and copy the winner's metadata.  (At every call site
`best_idx < candidates.length`, so the `getD` default is never read.) -/
def determine_classification (candidates : List MergedCandidate)
    (posteriors : List ℚ) (novelty_threshold : ℚ) : Classification × Bool :=
  if candidates.isEmpty ∨ posteriors.isEmpty then
    ({ method := "EM_probabilistic",
       classification := some "Unclassified",
       confidence := 0,
       is_novel := true,
       reason := some "No candidate taxa identified" }, true)
  else
    let best_idx := best_index posteriors
    let best_candidate := candidates.getD best_idx default
    let best_posterior := posteriors.getD best_idx 0
    let is_novel : Bool := decide (best_posterior < novelty_threshold)
    let confidence_level : String :=
      if best_posterior ≥ 0.9 then "high"
      else if best_posterior ≥ 0.7 then "medium"
      else if best_posterior ≥ novelty_threshold then "low"
      else "very_low_novel"
    ({ method := "EM_probabilistic",
       taxid := best_candidate.base.taxid,
       name := best_candidate.base.name,
       reference := best_candidate.base.reference,
       confidence := best_posterior,
       confidence_level := some confidence_level,
       is_novel := is_novel,
       source := some best_candidate.all_sources,
       num_sources := some best_candidate.num_sources,
       identity := best_candidate.base.identity,
       ani := best_candidate.base.ani,
       likelihood := some best_candidate.merged_likelihood }, is_novel)

/-- A numeric cell of a KRAKEN2 line: `empty` is a falsy string (the code
substitutes `0.0` without calling `float`), `val q` a string parsing as the
float `q`, `malformed` a non-empty string on which `float` raises
`ValueError`. -/
inductive FloatCell where
  | empty
  | val (q : ℚ)
  | malformed
deriving Repr, DecidableEq

/-- One tab-split line of a KRAKEN2 file as read by `parse_kraken2`:
`short` is a line with fewer than 5 fields (silently skipped by the
`len(parts) >= 5` guard); otherwise the fields `parts[0]`, `parts[2]`,
`parts[3]` and `parts[4]` that the code reads. -/
inductive KrakenRow where
  | short
  | fields (classified : String) (taxid : String) (conf : FloatCell)
      (taxname : String)
deriving Repr, DecidableEq

/-- `parse_kraken2`.  The per-line body has no row-level exception handler:
a `ValueError` from `float(parts[3])` propagates to the file-level
`try/except`, which prints a warning, and the function returns the
candidates accumulated so far — all later lines are dropped. -/
def parse_kraken2 (rows : List KrakenRow) (min_confidence : ℚ) : List Candidate :=
  match rows with
  | [] => []
  | KrakenRow.short :: rest => parse_kraken2 rest min_confidence
  | KrakenRow.fields classified taxid conf taxname :: rest =>
    match conf with
    | FloatCell.malformed => []
    | FloatCell.empty =>
      if classified = "C" ∧ (0 : ℚ) ≥ min_confidence then
        { source := "kraken2", taxid := some taxid, name := some taxname.trim,
          confidence := some 0, likelihood := 0 } ::
          parse_kraken2 rest min_confidence
      else parse_kraken2 rest min_confidence
    | FloatCell.val q =>
      if classified = "C" ∧ q ≥ min_confidence then
        { source := "kraken2", taxid := some taxid, name := some taxname.trim,
          confidence := some q, likelihood := q } ::
          parse_kraken2 rest min_confidence
      else parse_kraken2 rest min_confidence

/-- One CSV row of a BLAST file as read by `parse_blast`: `short` has fewer
than 6 cells (skipped by the `len(row) >= 6` guard); otherwise the six
cells, a numeric one being `none` when its `float`/`int` conversion raises
`ValueError` (caught by the row-level handler; note `float('')` also
raises, so there is no empty-cell special case here). -/
inductive BlastRow where
  | short
  | fields (staxids sscinames : String) (evalue : Option ℚ)
      (alnLength : Option ℤ) (score : Option ℚ) (pident : Option ℚ)
deriving Repr, DecidableEq

/-- `parse_blast`.  Rows with an unconvertible numeric cell are skipped by
the row-level `except (ValueError, IndexError)` and parsing continues.  A
kept row with `evalue = -1` makes `1.0 / (1.0 + evalue)` raise
`ZeroDivisionError`, which the row-level handler does not catch; the
file-level handler does, so the function returns the candidates
accumulated so far — all later rows are dropped. -/
def parse_blast (rows : List BlastRow) (min_identity : ℚ) : List Candidate :=
  match rows with
  | [] => []
  | BlastRow.short :: rest => parse_blast rest min_identity
  | BlastRow.fields staxids sscinames ev ln sc pid :: rest =>
    match ev, ln, sc, pid with
    | some evalue, some _, some score, some identity =>
      if identity ≥ min_identity then
        if (1 : ℚ) + evalue = 0 then []
        else
          { source := "blast", taxid := some staxids, name := some sscinames,
            identity := some identity, evalue := some evalue,
            score := some score,
            likelihood := identity / 100 * (1 / (1 + evalue)) } ::
            parse_blast rest min_identity
      else parse_blast rest min_identity
    | _, _, _, _ => parse_blast rest min_identity

/-- One tab-split line of a FastANI file as read by `parse_fastani`:
`short` has fewer than 5 fields; otherwise the reference name (stored
already reduced to `Path(parts[0]).stem`), and the three numeric fields,
`none` when the conversion raises `ValueError`. -/
inductive FastaniRow where
  | short
  | fields (reference : String) (ani : Option ℚ)
      (fragments_aligned : Option ℤ) (total_fragments : Option ℤ)
deriving Repr, DecidableEq

/-- `parse_fastani`.  The row-level handler catches `ValueError`,
`IndexError` and also `ZeroDivisionError` (raised by
`fragments_aligned / total_fragments` when `total_fragments = 0`), so every
malformed row is skipped and parsing continues. -/
def parse_fastani (rows : List FastaniRow) (min_similarity : ℚ) : List Candidate :=
  match rows with
  | [] => []
  | FastaniRow.short :: rest => parse_fastani rest min_similarity
  | FastaniRow.fields reference ani fa tf :: rest =>
    match ani, fa, tf with
    | some a, some f, some t =>
      if t = 0 then parse_fastani rest min_similarity
      else if a ≥ min_similarity then
        { source := "fastani", reference := some reference,
          name := some reference, ani := some a,
          coverage := some ((f : ℚ) / (t : ℚ) * 100),
          likelihood := a / 100 * ((f : ℚ) / (t : ℚ)) } ::
          parse_fastani rest min_similarity
      else parse_fastani rest min_similarity
    | _, _, _ => parse_fastani rest min_similarity

/-- Truthiness of a possibly-absent string: Python's `candidate.get(k)` is
falsy when the key is absent or its value is the empty string. -/
def nonFalsy (o : Option String) : Option String :=
  match o with
  | none => none
  | some s => if s = "" then none else some s

/-- `candidate.get('taxid') or candidate.get('reference') or
candidate.get('name')`; `none` when the whole chain is falsy (the
candidate is then dropped by `if not key: continue`). -/
def candKey (c : Candidate) : Option String :=
  match nonFalsy c.taxid with
  | some s => some s
  | none =>
    match nonFalsy c.reference with
    | some s => some s
    | none => nonFalsy c.name

/-- One value of the `taxon_map` defaultdict of `merge_candidates`.  In the
source the entry is created as `{'sources': [], 'likelihoods': [],
'metadata': None}` and filled in the same loop iteration, so the
`metadata = None` state is never observable across iterations; we store
the first contributing candidate directly. -/
structure TaxonData where
  sources : List String
  likelihoods : List ℚ
  metadata : Candidate
deriving Repr, DecidableEq, Inhabited

/-- One iteration of the accumulation loop of `merge_candidates`, on the
insertion-ordered association list modelling `taxon_map`: a fresh key is
appended at the end (dict insertion order); an existing entry has the
source and likelihood appended and its metadata replaced when the new
candidate's likelihood is strictly larger (`>`, so ties keep the earlier
metadata).  `updData` is the update of an existing entry. -/
def updData (d : TaxonData) (c : Candidate) : TaxonData :=
  { sources := d.sources ++ [c.source],
    likelihoods := d.likelihoods ++ [c.likelihood],
    metadata :=
      if c.likelihood > d.metadata.likelihood then c
      else d.metadata }

def insertCandidate (m : List (String × TaxonData)) (k : String)
    (c : Candidate) : List (String × TaxonData) :=
  match m with
  | [] => [(k, { sources := [c.source], likelihoods := [c.likelihood],
                 metadata := c })]
  | (k', d) :: rest =>
    if k' = k then (k', updData d c) :: rest
    else (k', d) :: insertCandidate rest k c

/-- The `for candidate in all_candidates` accumulation loop of
`merge_candidates`. -/
def buildTaxonMap : List (String × TaxonData) → List Candidate →
    List (String × TaxonData)
  | m, [] => m
  | m, c :: cs =>
    match candKey c with
    | none => buildTaxonMap m cs
    | some k => buildTaxonMap (insertCandidate m k c) cs

/-- `merge_candidates`: build `taxon_map`, then emit one merged candidate
per key in insertion order, with `merged_likelihood` the mean of the
grouped likelihoods and `num_sources` their count. -/
def merge_candidates (all_candidates : List Candidate) : List MergedCandidate :=
  (buildTaxonMap [] all_candidates).map (fun kd =>
    { base := kd.2.metadata,
      merged_likelihood := kd.2.likelihoods.sum / (kd.2.likelihoods.length : ℚ),
      num_sources := kd.2.sources.length,
      all_sources := String.intercalate "," kd.2.sources })

/-- Scenario B of the spec, checked by evaluation: two candidates with
merged likelihood 0.5 each converge in one iteration to the posterior
`[0.5, 0.5]`. -/
lemma scenarioB_tied_candidates :
    run_em_algorithm [1/2, 1/2] 50 (1/1000000) = some ([1/2, 1/2], 1, true) := by
  norm_num [run_em_algorithm, run_em_loop, initialize_priors, em_step, max_change]

/-- Scenario C of the spec, checked by evaluation: similarity 96 with
90/100 fragments aligned gives likelihood exactly 0.864. -/
lemma scenarioC_fastani_likelihood :
    (parse_fastani [FastaniRow.fields "refA" (some 96) (some 90) (some 100)]
        80).map Candidate.likelihood = [864/1000] := by
  norm_num [parse_fastani]

/-- Scenario D of the spec, checked by evaluation: likelihoods 0.8 and 0.6
for one taxon id merge into merged likelihood 0.7. -/
lemma scenarioD_merged_mean :
    (merge_candidates
        [{ source := "kraken2", taxid := some "42", name := some "X",
           likelihood := 8/10 },
         { source := "blast", taxid := some "42", name := some "X",
           likelihood := 6/10 }]).map MergedCandidate.merged_likelihood
      = [7/10] := by
  norm_num +decide [merge_candidates, buildTaxonMap, candKey, nonFalsy,
    insertCandidate, updData]

/-! ### Helper lemmas about the EM engine -/

lemma sum_map_div (l : List ℚ) (t : ℚ) :
    (l.map (fun x => x / t)).sum = l.sum / t := by
  induction l with
  | nil => simp
  | cons a l ih => simp [ih, add_div]

lemma length_initialize_priors (likes : List ℚ) :
    (initialize_priors likes).length = likes.length := by
  simp [initialize_priors]

lemma initialize_priors_nonneg (likes : List ℚ) :
    ∀ x ∈ initialize_priors likes, 0 ≤ x := by
  intro x hx
  simp only [initialize_priors, List.mem_map] at hx
  obtain ⟨_, _, rfl⟩ := hx
  exact div_nonneg zero_le_one (Nat.cast_nonneg _)

lemma zipWith_mul_nonneg (l p : List ℚ) (hl : ∀ x ∈ l, 0 ≤ x)
    (hp : ∀ x ∈ p, 0 ≤ x) :
    ∀ x ∈ List.zipWith (fun a b => a * b) l p, 0 ≤ x := by
  induction l generalizing p with
  | nil => simp
  | cons a l ih =>
    cases p with
    | nil => simp
    | cons b p =>
      intro x hx
      simp only [List.zipWith_cons_cons, List.mem_cons] at hx
      rcases hx with rfl | hx
      · exact mul_nonneg (hl a (by simp)) (hp b (by simp))
      · exact ih p (fun y hy => hl y (by simp [hy]))
          (fun y hy => hp y (by simp [hy])) x hx

lemma zipWith_mul_zero (l p : List ℚ) (hl : ∀ x ∈ l, x = 0) :
    ∀ x ∈ List.zipWith (fun a b => a * b) l p, x = 0 := by
  induction l generalizing p with
  | nil => simp
  | cons a l ih =>
    cases p with
    | nil => simp
    | cons b p =>
      intro x hx
      simp only [List.zipWith_cons_cons, List.mem_cons] at hx
      rcases hx with rfl | hx
      · rw [hl a (by simp), zero_mul]
      · exact ih p (fun y hy => hl y (by simp [hy])) x hx

lemma em_step_nonneg (likes P : List ℚ) (hl : ∀ x ∈ likes, 0 ≤ x)
    (hP : ∀ x ∈ P, 0 ≤ x) :
    ∀ x ∈ em_step likes P, 0 ≤ x := by
  simp only [em_step]
  split
  · intro x hx
    simp only [List.mem_map] at hx
    obtain ⟨_, _, rfl⟩ := hx
    exact div_nonneg zero_le_one (Nat.cast_nonneg _)
  · intro x hx
    simp only [List.mem_map] at hx
    obtain ⟨u, hu, rfl⟩ := hx
    exact div_nonneg (zipWith_mul_nonneg likes P hl hP u hu)
      (List.sum_nonneg (zipWith_mul_nonneg likes P hl hP))

lemma em_step_sum (likes P : List ℚ) (hne : likes ≠ []) :
    (em_step likes P).sum = 1 := by
  have hlen : (likes.length : ℚ) ≠ 0 :=
    Nat.cast_ne_zero.mpr (fun h0 => hne (List.length_eq_zero.mp h0))
  simp only [em_step]
  split
  · rw [List.map_const', List.sum_replicate, nsmul_eq_mul]
    field_simp
  · rename_i htot
    rw [sum_map_div, div_self htot]

/-- The sequence of prior tables visited by `run_em_algorithm` on a
non-empty candidate list: `emPriorsSeq likes n` is the prior table at the
start of iteration `n + 1` (`n = 0` is the uniform initial prior; each
iteration's posteriors become the next priors). -/
def emPriorsSeq (likes : List ℚ) : Nat → List ℚ
  | 0 => initialize_priors likes
  | n + 1 => em_step likes (emPriorsSeq likes n)

lemma emPriorsSeq_nonneg (likes : List ℚ) (hl : ∀ x ∈ likes, 0 ≤ x) :
    ∀ n, ∀ x ∈ emPriorsSeq likes n, 0 ≤ x := by
  intro n
  induction n with
  | zero => exact initialize_priors_nonneg likes
  | succ n ih => exact em_step_nonneg likes _ hl ih

/-- Every posterior table the EM loop can return is the table computed by
`em_step` at one of the visited priors `emPriorsSeq likes j`. -/
lemma run_em_loop_posterior_is_iteration (likes : List ℚ) (t : ℚ) :
    ∀ (fuel n done k : Nat) (P : List ℚ) (c : Bool),
      run_em_loop likes t (emPriorsSeq likes n) fuel done = some (P, k, c) →
      ∃ j, P = em_step likes (emPriorsSeq likes j) := by
  intro fuel
  induction fuel with
  | zero =>
    intro n done k P c h
    simp [run_em_loop] at h
  | succ fuel ih =>
    intro n done k P c h
    simp only [run_em_loop] at h
    split at h
    · exact ⟨n, by injection h with h'; exact (congrArg Prod.fst h').symm⟩
    · split at h
      · exact ⟨n, by injection h with h'; exact (congrArg Prod.fst h').symm⟩
      · have hseq : em_step likes (emPriorsSeq likes n) =
            emPriorsSeq likes (n + 1) := rfl
        rw [hseq] at h
        exact ih (n + 1) (done + 1) k P c h

/-- C1 (amended): at every iteration of `run_em_algorithm` on a non-empty
candidate list whose likelihoods are all non-negative, the posterior table
returned by `em_step` has only non-negative entries and sums exactly to 1
(hence certainly to 1 within `1e-9`); the sum is exact both in the
normalized branch and in the uniform fallback branch. -/
theorem em_iteration_posterior_nonneg_sum_one (likes : List ℚ) (n : Nat)
    (hne : likes ≠ []) (hnn : ∀ l ∈ likes, 0 ≤ l) :
    (∀ x ∈ em_step likes (emPriorsSeq likes n), 0 ≤ x) ∧
    (em_step likes (emPriorsSeq likes n)).sum = 1 :=
  ⟨em_step_nonneg likes _ hnn (emPriorsSeq_nonneg likes hnn n),
   em_step_sum likes _ hne⟩

/-- Witness for `em_iteration_posterior_nonneg_sum_one` at the concrete
candidate list `[1/2, 1/4]` and the first iteration. -/
theorem em_iteration_posterior_nonneg_sum_one_witness :
    (∀ x ∈ em_step [1/2, 1/4] (emPriorsSeq [1/2, 1/4] 0), 0 ≤ x) ∧
    (em_step [1/2, 1/4] (emPriorsSeq [1/2, 1/4] 0)).sum = 1 :=
  em_iteration_posterior_nonneg_sum_one [1/2, 1/4] 0 (by simp) (by norm_num)

/-- C1 counterexample: the claim fails as stated, because the pipeline can
build a merged candidate list with a negative `merged_likelihood` (a BLAST
row with a negative e-value passes the identity filter), and at the first
EM iteration the normalized posterior table then has a negative entry. -/
theorem em_step_posterior_negative_entry :
    (merge_candidates (parse_blast
        [BlastRow.fields "1" "A" (some 0) (some 100) (some 50) (some 80),
         BlastRow.fields "2" "B" (some (-2)) (some 100) (some 50) (some 70)]
        70)).map MergedCandidate.merged_likelihood = [4/5, -7/10] ∧
    em_step [4/5, -7/10] (emPriorsSeq [4/5, -7/10] 0) = [8, -7] ∧
    ¬ (∀ x ∈ em_step [4/5, -7/10] (emPriorsSeq [4/5, -7/10] 0), 0 ≤ x) := by
  refine ⟨?_, ?_, ?_⟩
  · norm_num +decide [parse_blast, merge_candidates, buildTaxonMap, candKey,
      nonFalsy, insertCandidate]
  · norm_num [em_step, emPriorsSeq, initialize_priors]
  · intro h
    have h7 := h (-7)
    norm_num [em_step, emPriorsSeq, initialize_priors] at h7

/-! ### C2: totality and the iteration bound of `run_em_algorithm` -/

lemma run_em_loop_total (likes : List ℚ) (t : ℚ) :
    ∀ fuel : Nat, 1 ≤ fuel → ∀ (priors : List ℚ) (done : Nat),
      ∃ P k c, run_em_loop likes t priors fuel done = some (P, k, c) ∧
        k ≤ done + fuel := by
  intro fuel
  induction fuel with
  | zero => omega
  | succ fuel ih =>
    intro _ priors done
    by_cases hconv : max_change (em_step likes priors) priors < t
    · refine ⟨em_step likes priors, done + 1, true, ?_, by omega⟩
      simp only [run_em_loop]
      rw [if_pos hconv]
    · by_cases hf : fuel = 0
      · refine ⟨em_step likes priors, done + 1, false, ?_, by omega⟩
        simp only [run_em_loop]
        rw [if_neg hconv, if_pos hf]
      · obtain ⟨P, k, c, hrun, hk⟩ :=
          ih (by omega) (em_step likes priors) (done + 1)
        refine ⟨P, k, c, ?_, by omega⟩
        simp only [run_em_loop]
        rw [if_neg hconv, if_neg hf]
        exact hrun

/-- C2 (amended): `run_em_algorithm` returns normally with an iteration
count of at most `max_iterations` whenever the candidate list is empty or
`max_iterations ≥ 1`.  (For `max_iterations = 0` on a non-empty list the
code raises `UnboundLocalError`: see
`run_em_algorithm_zero_iterations_crash`.) -/
theorem run_em_algorithm_total (likes : List ℚ) (m : Nat) (t : ℚ)
    (h : likes = [] ∨ 1 ≤ m) :
    ∃ P k c, run_em_algorithm likes m t = some (P, k, c) ∧ k ≤ m := by
  by_cases hne : likes = []
  · subst hne
    exact ⟨[], 0, false, by simp [run_em_algorithm], Nat.zero_le m⟩
  · have hm : 1 ≤ m := h.resolve_left hne
    obtain ⟨P, k, c, hrun, hk⟩ :=
      run_em_loop_total likes t m hm (initialize_priors likes) 0
    refine ⟨P, k, c, ?_, by omega⟩
    rw [run_em_algorithm, if_neg (by simpa [List.isEmpty_iff] using hne)]
    exact hrun

/-- Witness for `run_em_algorithm_total` at a concrete non-empty list. -/
theorem run_em_algorithm_total_witness :
    ∃ P k c, run_em_algorithm [1/2] 5 (1/1000000) = some (P, k, c) ∧ k ≤ 5 :=
  run_em_algorithm_total [1/2] 5 (1/1000000) (Or.inr (by norm_num))

/-- C2 counterexample: with `max_iterations = 0` and a non-empty candidate
list, the loop body never runs and `return posteriors, max_iterations,
False` reads the never-assigned local `posteriors`, raising
`UnboundLocalError` — the function does not return normally. -/
theorem run_em_algorithm_zero_iterations_crash :
    run_em_algorithm [1] 0 (1/1000000) = none := by
  norm_num [run_em_algorithm, run_em_loop, initialize_priors]

/-! ### C3: the zero-candidate degenerate case -/

/-- C3: with zero candidates, `run_em_algorithm` returns the empty
posterior table, 0 iterations and `converged = false`, and
`determine_classification` returns classification `"Unclassified"`,
confidence `0.0`, `is_novel = true` and an explicit reason string — no
exception is raised on this path. -/
theorem zero_candidates_defined_result (m : Nat) (t ν : ℚ) (posts : List ℚ) :
    run_em_algorithm [] m t = some ([], 0, false) ∧
    determine_classification [] posts ν =
      ({ method := "EM_probabilistic", classification := some "Unclassified",
         confidence := 0, is_novel := true,
         reason := some "No candidate taxa identified" }, true) := by
  constructor
  · simp [run_em_algorithm]
  · simp [determine_classification]

/-! ### C10: the all-zero-likelihood fallback -/

lemma max_change_self (l : List ℚ) : max_change l l = 0 := by
  induction l with
  | nil => simp [max_change]
  | cons a l ih =>
    simp only [max_change, List.zipWith_cons_cons, List.foldr_cons,
      sub_self, abs_zero] at ih ⊢
    rw [ih]
    simp

/-- C10: on a non-empty candidate list whose merged likelihoods are all 0,
with `max_iterations ≥ 1` (and a positive convergence threshold, as
configured by default), the zero-total fallback reproduces the uniform
initial prior, the first convergence test sees a change of 0 and passes,
and `run_em_algorithm` returns the uniform posterior `1/N` with
`converged = true` after exactly 1 iteration. -/
theorem run_em_algorithm_all_zero_uniform (likes : List ℚ) (m : Nat) (t : ℚ)
    (hne : likes ≠ []) (hz : ∀ l ∈ likes, l = 0) (hm : 1 ≤ m) (ht : 0 < t) :
    run_em_algorithm likes m t =
      some (likes.map (fun _ => 1 / (likes.length : ℚ)), 1, true) := by
  obtain ⟨m', rfl⟩ : ∃ m', m = m' + 1 := ⟨m - 1, by omega⟩
  have hstep : em_step likes (initialize_priors likes) =
      initialize_priors likes := by
    simp only [em_step]
    rw [if_pos (List.sum_eq_zero
      (zipWith_mul_zero likes (initialize_priors likes) hz))]
    rfl
  have hconv : max_change (em_step likes (initialize_priors likes))
      (initialize_priors likes) < t := by
    rw [hstep, max_change_self]
    exact ht
  rw [run_em_algorithm, if_neg (by simpa [List.isEmpty_iff] using hne)]
  simp only [run_em_loop]
  rw [if_pos hconv, hstep]
  rfl

/-- Witness for `run_em_algorithm_all_zero_uniform` on two all-zero
candidates with the default cap and threshold. -/
theorem run_em_algorithm_all_zero_uniform_witness :
    run_em_algorithm [0, 0] 50 (1/1000000) = some ([1/2, 1/2], 1, true) := by
  have h := run_em_algorithm_all_zero_uniform [0, 0] 50 (1/1000000)
    (by simp) (by simp) (by norm_num) (by norm_num)
  simpa using h

/-! ### C4, C7: the classification decider -/

lemma best_index_aux_spec (L : List ℚ) :
    ∀ (xs : List ℚ) (idx bi : Nat) (bv : ℚ),
      L.drop idx = xs → bi < L.length → L.getD bi 0 = bv →
      (∀ j < idx, L.getD j 0 ≤ bv) →
      (∀ j < bi, L.getD j 0 < bv) →
      best_index_aux xs idx bi bv < L.length ∧
      (∀ j < L.length, L.getD j 0 ≤ L.getD (best_index_aux xs idx bi bv) 0) ∧
      (∀ j < best_index_aux xs idx bi bv,
        L.getD j 0 < L.getD (best_index_aux xs idx bi bv) 0) := by
  intro xs
  induction xs with
  | nil =>
    intro idx bi bv hdrop hbi hbv hle hlt
    have hlen : L.length ≤ idx := by
      by_contra hcon
      push_neg at hcon
      have : L.drop idx ≠ [] := by
        simp [List.drop_eq_nil_iff]
        omega
      exact this hdrop
    refine ⟨hbi, ?_, ?_⟩
    · intro j hj
      rw [best_index_aux, hbv]
      exact hle j (by omega)
    · intro j hj
      rw [best_index_aux] at hj ⊢
      rw [hbv]
      exact hlt j hj
  | cons x xs ih =>
    intro idx bi bv hdrop hbi hbv hle hlt
    have hidx : idx < L.length := by
      by_contra hcon
      push_neg at hcon
      rw [List.drop_eq_nil_of_le hcon] at hdrop
      exact List.noConfusion hdrop
    have hx : L.getD idx 0 = x := by
      have h0 : L[idx]? = some x := by
        have h1 := List.getElem?_drop L idx 0
        rw [hdrop] at h1
        simpa using h1.symm
      simp [List.getD_eq_getElem?_getD, h0]
    have hxs : L.drop (idx + 1) = xs := by
      have : (L.drop idx).drop 1 = L.drop (idx + 1) := by
        rw [List.drop_drop]
      rw [hdrop] at this
      simpa using this.symm
    rw [best_index_aux]
    by_cases hcmp : bv < x
    · rw [if_pos hcmp]
      refine ih (idx + 1) idx x hxs hidx hx ?_ ?_
      · intro j hj
        rcases Nat.lt_succ_iff_lt_or_eq.mp hj with hj' | rfl
        · exact le_trans (hle j hj') (le_of_lt hcmp)
        · exact le_of_eq hx
      · intro j hj
        exact lt_of_le_of_lt (hle j hj) hcmp
    · rw [if_neg hcmp]
      push_neg at hcmp
      refine ih (idx + 1) bi bv hxs hbi hbv ?_ hlt
      intro j hj
      rcases Nat.lt_succ_iff_lt_or_eq.mp hj with hj' | rfl
      · exact hle j hj'
      · rw [hx]
        exact hcmp

/-- The index computed by `best_index` is in range, attains the maximum
posterior, and every earlier index has a strictly smaller posterior (the
first-occurrence tie-breaking of Python's `max`). -/
lemma best_index_spec (posts : List ℚ) (h : posts ≠ []) :
    best_index posts < posts.length ∧
    (∀ j < posts.length, posts.getD j 0 ≤ posts.getD (best_index posts) 0) ∧
    (∀ j < best_index posts,
      posts.getD j 0 < posts.getD (best_index posts) 0) := by
  match posts, h with
  | x :: xs, _ =>
    have hspec := best_index_aux_spec (x :: xs) xs 1 0 x (by simp) (by simp)
      (by simp) ?_ ?_
    · simpa [best_index] using hspec
    · intro j hj
      have : j = 0 := by omega
      subst this
      simp
    · intro j hj
      omega

lemma determine_classification_not_degenerate (cands : List MergedCandidate)
    (posts : List ℚ) (hc : cands ≠ []) (hp : posts ≠ []) :
    ¬(cands.isEmpty ∨ posts.isEmpty) := by
  simp [List.isEmpty_iff, hc, hp]

/-- C4: on the non-degenerate path, `determine_classification` reports as
confidence the winning posterior `p`, assigns the tier by the first
matching rule `p ≥ 0.9 → "high"`, `0.7 ≤ p < 0.9 → "medium"`,
`ν ≤ p < 0.7 → "low"`, `p < ν (and p < 0.7) → "very_low_novel"`, sets
`is_novel ↔ p < ν`, and tier `"very_low_novel"` always implies
`is_novel`. -/
theorem determine_classification_confidence_tiers
    (cands : List MergedCandidate) (posts : List ℚ) (ν p : ℚ)
    (r : Classification)
    (hc : cands ≠ []) (hp : posts ≠ [])
    (hr : r = (determine_classification cands posts ν).1)
    (hpd : p = posts.getD (best_index posts) 0) :
    r.confidence = p ∧
    (r.is_novel = true ↔ p < ν) ∧
    (0.9 ≤ p → r.confidence_level = some "high") ∧
    (0.7 ≤ p → p < 0.9 → r.confidence_level = some "medium") ∧
    (ν ≤ p → p < 0.7 → r.confidence_level = some "low") ∧
    (p < ν → p < 0.7 → r.confidence_level = some "very_low_novel") ∧
    (r.confidence_level = some "very_low_novel" → r.is_novel = true) := by
  rw [determine_classification,
    if_neg (determine_classification_not_degenerate cands posts hc hp)] at hr
  dsimp only at hr
  subst hr
  rw [← hpd]
  dsimp only
  refine ⟨rfl, decide_eq_true_iff, ?_, ?_, ?_, ?_, ?_⟩
  · intro h1
    rw [if_pos (by exact h1)]
  · intro h1 h2
    rw [if_neg (not_le.mpr h2), if_pos (by exact h1)]
  · intro h1 h2
    rw [if_neg (not_le.mpr (by linarith : p < (0.9 : ℚ))),
      if_neg (not_le.mpr h2), if_pos (by exact h1)]
  · intro h1 h2
    rw [if_neg (not_le.mpr (by linarith : p < (0.9 : ℚ))),
      if_neg (not_le.mpr h2), if_neg (not_le.mpr h1)]
  · intro h
    split_ifs at h with h1 h2 h3
    · exact absurd h (by simp)
    · exact absurd h (by simp)
    · exact absurd h (by simp)
    · simp only [decide_eq_true_iff]
      exact not_le.mp h3

/-- Witness for `determine_classification_confidence_tiers`: posterior
exactly `0.9` is tier `"high"`, posterior `0.69999` with the default
novelty threshold `0.5` is tier `"low"`. -/
theorem determine_classification_confidence_tiers_witness :
    (determine_classification [default] [(9 : ℚ)/10] (1/2)).1.confidence_level
        = some "high" ∧
    (determine_classification [default] [(69999 : ℚ)/100000]
        (1/2)).1.confidence_level = some "low" := by
  constructor
  · exact (determine_classification_confidence_tiers [default] [(9 : ℚ)/10]
      (1/2) _ _ (by simp) (by simp) rfl rfl).2.2.1
      (by norm_num [best_index, best_index_aux])
  · exact (determine_classification_confidence_tiers [default]
      [(69999 : ℚ)/100000] (1/2) _ _ (by simp) (by simp) rfl rfl).2.2.2.2.1
      (by norm_num [best_index, best_index_aux])
      (by norm_num [best_index, best_index_aux])

/-- C7: on the non-degenerate path `determine_classification` selects the
winner as the index with the maximum posterior value, breaking ties by the
first occurrence in candidate order, and reports that candidate's
metadata and that posterior as the confidence. -/
theorem determine_classification_winner
    (cands : List MergedCandidate) (posts : List ℚ) (ν : ℚ)
    (hc : cands ≠ []) (hp : posts ≠ []) :
    ∃ b, b = best_index posts ∧ b < posts.length ∧
      (∀ j < posts.length, posts.getD j 0 ≤ posts.getD b 0) ∧
      (∀ j < b, posts.getD j 0 < posts.getD b 0) ∧
      (determine_classification cands posts ν).1.confidence =
        posts.getD b 0 ∧
      (determine_classification cands posts ν).1.name =
        (cands.getD b default).base.name ∧
      (determine_classification cands posts ν).1.taxid =
        (cands.getD b default).base.taxid := by
  obtain ⟨h1, h2, h3⟩ := best_index_spec posts hp
  refine ⟨best_index posts, rfl, h1, h2, h3, ?_, ?_, ?_⟩ <;>
    rw [determine_classification,
      if_neg (determine_classification_not_degenerate cands posts hc hp)]

/-- The two tied candidates of the witness for
`determine_classification_winner`. -/
def mcA : MergedCandidate :=
  { base := { source := "kraken2", taxid := some "1", name := some "A",
              likelihood := 1/2 },
    merged_likelihood := 1/2, num_sources := 1, all_sources := "kraken2" }

/-- Second tied candidate of the witness for
`determine_classification_winner`. -/
def mcB : MergedCandidate :=
  { base := { source := "kraken2", taxid := some "2", name := some "B",
              likelihood := 1/2 },
    merged_likelihood := 1/2, num_sources := 1, all_sources := "kraken2" }

/-- Witness for `determine_classification_winner`: two candidates with
merged likelihood `0.5` each; the EM run converges to the posterior
`[0.5, 0.5]` and the winner is the first candidate. -/
theorem determine_classification_winner_witness :
    run_em_algorithm [1/2, 1/2] 50 (1/1000000) = some ([1/2, 1/2], 1, true) ∧
    best_index [(1 : ℚ)/2, 1/2] = 0 ∧
    (determine_classification [mcA, mcB] [1/2, 1/2] (1/2)).1.name
      = some "A" := by
  refine ⟨?_, ?_, ?_⟩
  · norm_num [run_em_algorithm, run_em_loop, initialize_priors, em_step,
      max_change]
  · norm_num [best_index, best_index_aux]
  · obtain ⟨b, hb, _, _, _, _, hname, _⟩ :=
      determine_classification_winner [mcA, mcB] [1/2, 1/2] (1/2)
        (by simp) (by simp)
    rw [hname]
    have hb0 : b = 0 := by
      rw [hb]
      norm_num [best_index, best_index_aux]
    rw [hb0]
    rfl

/-! ### C5: robustness of the extractors to malformed rows -/

/-- C5 (evaluation at the failing input): a KRAKEN2 row whose confidence
field cannot be parsed as a float aborts the whole file — the `ValueError`
from `float(parts[3])` is caught only by the file-level handler — so the
well-formed qualifying row after it is dropped, although that same row
parsed alone yields a candidate. -/
theorem parse_kraken2_malformed_row_drops_rest :
    parse_kraken2
      [KrakenRow.fields "C" "10" FloatCell.malformed "TaxA",
       KrakenRow.fields "C" "11" (FloatCell.val (9/10)) "TaxB"] (1/10) = [] ∧
    (parse_kraken2 [KrakenRow.fields "C" "11" (FloatCell.val (9/10)) "TaxB"]
        (1/10)).map Candidate.likelihood = [9/10] := by
  constructor
  · rfl
  · norm_num +decide [parse_kraken2]

/-! ### C8: range of the derived likelihoods -/

/-- Natural range of a KRAKEN2 row: a parseable confidence field is a
probability in `[0, 1]`. -/
def KrakenRowOK : KrakenRow → Prop
  | KrakenRow.short => True
  | KrakenRow.fields _ _ FloatCell.empty _ => True
  | KrakenRow.fields _ _ (FloatCell.val q) _ => 0 ≤ q ∧ q ≤ 1
  | KrakenRow.fields _ _ FloatCell.malformed _ => True

/-- Natural range of a BLAST row: non-negative e-value, percent identity
in `[0, 100]`. -/
def BlastRowOK : BlastRow → Prop
  | BlastRow.short => True
  | BlastRow.fields _ _ ev _ _ pid =>
    (∀ e ∈ ev, 0 ≤ e) ∧ (∀ q ∈ pid, 0 ≤ q ∧ q ≤ 100)

/-- Natural range of a FastANI row: similarity in `[0, 100]` and
`0 ≤ fragments_aligned ≤ total_fragments`. -/
def FastaniRowOK : FastaniRow → Prop
  | FastaniRow.short => True
  | FastaniRow.fields _ ani fa tf =>
    (∀ a ∈ ani, 0 ≤ a ∧ a ≤ 100) ∧ (∀ f ∈ fa, ∀ t ∈ tf, 0 ≤ f ∧ f ≤ t)

lemma parse_kraken2_likelihood_bounds (rows : List KrakenRow) (mc : ℚ)
    (hok : ∀ r ∈ rows, KrakenRowOK r) :
    ∀ c ∈ parse_kraken2 rows mc, 0 ≤ c.likelihood ∧ c.likelihood ≤ 1 := by
  induction rows with
  | nil => simp [parse_kraken2]
  | cons r rows ih =>
    have hrest : ∀ r' ∈ rows, KrakenRowOK r' :=
      fun r' hr' => hok r' (by simp [hr'])
    cases r with
    | short => simpa only [parse_kraken2] using ih hrest
    | fields cl tx conf nm =>
      have hr := hok _ (List.mem_cons_self _ _)
      cases conf with
      | malformed => simp [parse_kraken2]
      | empty =>
        simp only [parse_kraken2]
        split
        · intro c hc
          rcases List.mem_cons.mp hc with rfl | hc'
          · exact ⟨le_refl 0, zero_le_one⟩
          · exact ih hrest c hc'
        · exact ih hrest
      | val q =>
        simp only [parse_kraken2]
        split
        · intro c hc
          rcases List.mem_cons.mp hc with rfl | hc'
          · exact hr
          · exact ih hrest c hc'
        · exact ih hrest

lemma parse_blast_likelihood_bounds (rows : List BlastRow) (mi : ℚ)
    (hok : ∀ r ∈ rows, BlastRowOK r) :
    ∀ c ∈ parse_blast rows mi, 0 ≤ c.likelihood ∧ c.likelihood ≤ 1 := by
  induction rows with
  | nil => simp [parse_blast]
  | cons r rows ih =>
    have hrest : ∀ r' ∈ rows, BlastRowOK r' :=
      fun r' hr' => hok r' (by simp [hr'])
    cases r with
    | short => simpa only [parse_blast] using ih hrest
    | fields tx nm ev ln sc pid =>
      have hr := hok _ (List.mem_cons_self _ _)
      obtain _ | evalue := ev
      · simpa only [parse_blast] using ih hrest
      · obtain _ | alnl := ln
        · simpa only [parse_blast] using ih hrest
        · obtain _ | score := sc
          · simpa only [parse_blast] using ih hrest
          · obtain _ | identity := pid
            · simpa only [parse_blast] using ih hrest
            · simp only [BlastRowOK, Option.mem_def, Option.some.injEq] at hr
              have hev : (0 : ℚ) ≤ evalue := hr.1 evalue rfl
              have hid : (0 : ℚ) ≤ identity ∧ identity ≤ 100 :=
                hr.2 identity rfl
              simp only [parse_blast]
              split
              · split
                · simp
                · intro c hc
                  rcases List.mem_cons.mp hc with rfl | hc'
                  · constructor
                    · exact mul_nonneg (div_nonneg hid.1 (by norm_num))
                        (div_nonneg zero_le_one (by linarith))
                    · have h1 : (0 : ℚ) < 1 + evalue := by linarith
                      have h2 : identity / 100 ≤ 1 := by
                        rw [div_le_one (by norm_num : (0 : ℚ) < 100)]
                        exact hid.2
                      have h3 : 1 / (1 + evalue) ≤ 1 := by
                        rw [div_le_one h1]
                        linarith
                      have h4 : (0 : ℚ) ≤ 1 / (1 + evalue) :=
                        le_of_lt (by positivity)
                      calc identity / 100 * (1 / (1 + evalue))
                          ≤ 1 * 1 :=
                            mul_le_mul h2 h3 h4 zero_le_one
                        _ = 1 := by norm_num
                  · exact ih hrest c hc'
              · exact ih hrest

lemma parse_fastani_likelihood_bounds (rows : List FastaniRow) (ms : ℚ)
    (hok : ∀ r ∈ rows, FastaniRowOK r) :
    ∀ c ∈ parse_fastani rows ms, 0 ≤ c.likelihood ∧ c.likelihood ≤ 1 := by
  induction rows with
  | nil => simp [parse_fastani]
  | cons r rows ih =>
    have hrest : ∀ r' ∈ rows, FastaniRowOK r' :=
      fun r' hr' => hok r' (by simp [hr'])
    cases r with
    | short => simpa only [parse_fastani] using ih hrest
    | fields ref ani fa tf =>
      have hr := hok _ (List.mem_cons_self _ _)
      obtain _ | a := ani
      · simpa only [parse_fastani] using ih hrest
      · obtain _ | f := fa
        · simpa only [parse_fastani] using ih hrest
        · obtain _ | t := tf
          · simpa only [parse_fastani] using ih hrest
          · simp only [FastaniRowOK, Option.mem_def, Option.some.injEq] at hr
            have ha : (0 : ℚ) ≤ a ∧ a ≤ 100 := hr.1 a rfl
            have hft : (0 : ℤ) ≤ f ∧ f ≤ t := hr.2 f rfl t rfl
            simp only [parse_fastani]
            split
            · exact ih hrest
            · rename_i ht0
              split
              · intro c hc
                rcases List.mem_cons.mp hc with rfl | hc'
                · have htpos : (0 : ℤ) < t :=
                    lt_of_le_of_ne (le_trans hft.1 hft.2) (Ne.symm ht0)
                  have htq : (0 : ℚ) < (t : ℚ) := by exact_mod_cast htpos
                  have hfq : (0 : ℚ) ≤ (f : ℚ) := by exact_mod_cast hft.1
                  have hftq : (f : ℚ) ≤ (t : ℚ) := by exact_mod_cast hft.2
                  constructor
                  · exact mul_nonneg (div_nonneg ha.1 (by norm_num))
                      (div_nonneg hfq (le_of_lt htq))
                  · have h2 : a / 100 ≤ 1 := by
                      rw [div_le_one (by norm_num : (0 : ℚ) < 100)]
                      exact ha.2
                    have h3 : (f : ℚ) / (t : ℚ) ≤ 1 := by
                      rw [div_le_one htq]
                      exact hftq
                    have h4 : (0 : ℚ) ≤ (f : ℚ) / (t : ℚ) :=
                      div_nonneg hfq (le_of_lt htq)
                    calc a / 100 * ((f : ℚ) / (t : ℚ))
                        ≤ 1 * 1 := mul_le_mul h2 h3 h4 zero_le_one
                      _ = 1 := by norm_num
                · exact ih hrest c hc'
              · exact ih hrest

/-- C8 (amended): every candidate produced by the three extractors has
likelihood in `[0, 1]` provided the parsed numeric fields lie in their
natural ranges (confidence in `[0,1]`; e-value ≥ 0 and identity in
`[0,100]`; similarity in `[0,100]` and
`0 ≤ fragments_aligned ≤ total_fragments`).  Without that restriction the
likelihood leaves `[0,1]`: see `parse_kraken2_likelihood_above_one`. -/
theorem extractor_likelihood_in_unit_interval
    (krows : List KrakenRow) (brows : List BlastRow) (frows : List FastaniRow)
    (mck mib mis : ℚ)
    (hk : ∀ r ∈ krows, KrakenRowOK r) (hb : ∀ r ∈ brows, BlastRowOK r)
    (hf : ∀ r ∈ frows, FastaniRowOK r) :
    (∀ c ∈ parse_kraken2 krows mck, 0 ≤ c.likelihood ∧ c.likelihood ≤ 1) ∧
    (∀ c ∈ parse_blast brows mib, 0 ≤ c.likelihood ∧ c.likelihood ≤ 1) ∧
    (∀ c ∈ parse_fastani frows mis, 0 ≤ c.likelihood ∧ c.likelihood ≤ 1) :=
  ⟨parse_kraken2_likelihood_bounds krows mck hk,
   parse_blast_likelihood_bounds brows mib hb,
   parse_fastani_likelihood_bounds frows mis hf⟩

/-- Witness for `extractor_likelihood_in_unit_interval` at a concrete
BLAST row (identity 90, e-value 1). -/
theorem extractor_likelihood_in_unit_interval_witness :
    0 ≤ (({ source := "blast", taxid := some "5", name := some "E",
            identity := some 90, evalue := some 1, score := some 10,
            likelihood := 90 / 100 * (1 / (1 + 1)) } : Candidate)).likelihood ∧
    (({ source := "blast", taxid := some "5", name := some "E",
        identity := some 90, evalue := some 1, score := some 10,
        likelihood := 90 / 100 * (1 / (1 + 1)) } : Candidate)).likelihood ≤ 1 :=
  (extractor_likelihood_in_unit_interval []
      [BlastRow.fields "5" "E" (some 1) (some 200) (some 10) (some 90)] []
      (1/10) 70 80 (by simp) (by norm_num [BlastRowOK]) (by simp)).2.1 _
    (by norm_num +decide [parse_blast])

/-- C8 counterexample: a KRAKEN2 row whose confidence field parses as
`2.0` passes the default confidence filter `0.1` and yields a candidate
with likelihood `2 ∉ [0, 1]` (the confidence is used verbatim, with no
clamping). -/
theorem parse_kraken2_likelihood_above_one :
    (parse_kraken2 [KrakenRow.fields "C" "42" (FloatCell.val 2) "TaxX"]
        (1/10)).map Candidate.likelihood = [2] ∧
    ¬ (∀ c ∈ parse_kraken2 [KrakenRow.fields "C" "42" (FloatCell.val 2) "TaxX"]
        (1/10), 0 ≤ c.likelihood ∧ c.likelihood ≤ 1) := by
  have hmap : (parse_kraken2
      [KrakenRow.fields "C" "42" (FloatCell.val 2) "TaxX"]
      (1/10)).map Candidate.likelihood = [2] := by
    norm_num +decide [parse_kraken2]
  refine ⟨hmap, fun h => ?_⟩
  have hm : (2 : ℚ) ∈ (parse_kraken2
      [KrakenRow.fields "C" "42" (FloatCell.val 2) "TaxX"]
      (1/10)).map Candidate.likelihood := by
    rw [hmap]
    simp
  obtain ⟨c, hc, hlik⟩ := List.mem_map.mp hm
  have := (h c hc).2
  rw [hlik] at this
  norm_num at this

/-! ### C6: the merger averages likelihoods per identity key -/

/-- The likelihoods of all candidates whose identity key is `k`, in
encounter order. -/
def groupLikelihoods (cands : List Candidate) (k : String) : List ℚ :=
  (cands.filter (fun c => decide (candKey c = some k))).map Candidate.likelihood

/-- The source tags of all candidates whose identity key is `k`, in
encounter order. -/
def groupSources (cands : List Candidate) (k : String) : List String :=
  (cands.filter (fun c => decide (candKey c = some k))).map Candidate.source

/-- First-match lookup in the association list modelling `taxon_map`. -/
def mapLookup (m : List (String × TaxonData)) (k : String) : Option TaxonData :=
  match m with
  | [] => none
  | (k', d) :: rest => if k' = k then some d else mapLookup rest k

lemma mapLookup_insert_same (m : List (String × TaxonData)) (k : String)
    (c : Candidate) :
    mapLookup (insertCandidate m k c) k =
      some (match mapLookup m k with
            | some d => updData d c
            | none => { sources := [c.source], likelihoods := [c.likelihood],
                        metadata := c }) := by
  induction m with
  | nil => simp [insertCandidate, mapLookup]
  | cons kd rest ih =>
    obtain ⟨k', d⟩ := kd
    by_cases hk : k' = k
    · subst hk
      simp [insertCandidate, mapLookup]
    · simp [insertCandidate, mapLookup, hk, ih]

lemma mapLookup_insert_other (m : List (String × TaxonData)) (k k' : String)
    (c : Candidate) (hkk : k' ≠ k) :
    mapLookup (insertCandidate m k c) k' = mapLookup m k' := by
  induction m with
  | nil => simp [insertCandidate, mapLookup, Ne.symm hkk]
  | cons kd rest ih =>
    obtain ⟨k₁, d⟩ := kd
    by_cases hk : k₁ = k
    · subst hk
      simp [insertCandidate, mapLookup, Ne.symm hkk]
    · simp [insertCandidate, mapLookup, hk, ih]

lemma insertCandidate_keys_of_mem (m : List (String × TaxonData)) (k : String)
    (c : Candidate) (h : k ∈ m.map Prod.fst) :
    (insertCandidate m k c).map Prod.fst = m.map Prod.fst := by
  induction m with
  | nil => simp at h
  | cons kd rest ih =>
    obtain ⟨k₁, d⟩ := kd
    by_cases hk : k₁ = k
    · subst hk
      simp [insertCandidate]
    · have : k ∈ rest.map Prod.fst := by
        simpa [Ne.symm hk] using h
      simp [insertCandidate, hk, ih this]

lemma insertCandidate_keys_of_not_mem (m : List (String × TaxonData))
    (k : String) (c : Candidate) (h : k ∉ m.map Prod.fst) :
    insertCandidate m k c =
      m ++ [(k, { sources := [c.source], likelihoods := [c.likelihood],
                  metadata := c })] := by
  induction m with
  | nil => simp [insertCandidate]
  | cons kd rest ih =>
    obtain ⟨k₁, d⟩ := kd
    have hk : k₁ ≠ k := by
      intro hcon
      exact h (by simp [hcon])
    have : k ∉ rest.map Prod.fst := fun hc => h (by simp [hc])
    simp [insertCandidate, hk, ih this]

lemma mapLookup_of_mem (m : List (String × TaxonData)) (k : String)
    (d : TaxonData) (hnd : (m.map Prod.fst).Nodup) (h : (k, d) ∈ m) :
    mapLookup m k = some d := by
  induction m with
  | nil => simp at h
  | cons kd rest ih =>
    obtain ⟨k₁, d₁⟩ := kd
    rcases List.mem_cons.mp h with heq | hmem
    · obtain ⟨rfl, rfl⟩ := Prod.mk.injEq .. ▸ heq
      · simp [mapLookup]
    · have hk : k₁ ≠ k := by
        intro hcon
        subst hcon
        have : k₁ ∈ rest.map Prod.fst :=
          List.mem_map.mpr ⟨(k₁, d), hmem, rfl⟩
        exact (List.nodup_cons.mp hnd).1 this
      simp [mapLookup, hk]
      exact ih (List.nodup_cons.mp hnd).2 hmem

lemma groupLikelihoods_append_hit (p : List Candidate) (c : Candidate)
    (k : String) (h : candKey c = some k) :
    groupLikelihoods (p ++ [c]) k = groupLikelihoods p k ++ [c.likelihood] := by
  simp [groupLikelihoods, List.filter_append, h]

lemma groupLikelihoods_append_miss (p : List Candidate) (c : Candidate)
    (k : String) (h : candKey c ≠ some k) :
    groupLikelihoods (p ++ [c]) k = groupLikelihoods p k := by
  simp [groupLikelihoods, List.filter_append, h]

lemma groupSources_append_hit (p : List Candidate) (c : Candidate)
    (k : String) (h : candKey c = some k) :
    groupSources (p ++ [c]) k = groupSources p k ++ [c.source] := by
  simp [groupSources, List.filter_append, h]

lemma groupSources_append_miss (p : List Candidate) (c : Candidate)
    (k : String) (h : candKey c ≠ some k) :
    groupSources (p ++ [c]) k = groupSources p k := by
  simp [groupSources, List.filter_append, h]

/-- Invariant of the accumulation loop of `merge_candidates`: after
processing the prefix `p`, the `taxon_map` has pairwise-distinct keys and
the entry at key `k` holds exactly the likelihoods and sources of the
candidates of `p` keyed `k`, in encounter order. -/
lemma buildTaxonMap_spec :
    ∀ (cs : List Candidate) (m : List (String × TaxonData))
      (p : List Candidate),
      (m.map Prod.fst).Nodup →
      (∀ k d, mapLookup m k = some d →
        d.likelihoods = groupLikelihoods p k ∧
        d.sources = groupSources p k ∧ d.likelihoods ≠ []) →
      (∀ k, mapLookup m k = none → groupLikelihoods p k = []) →
      ((buildTaxonMap m cs).map Prod.fst).Nodup ∧
      (∀ k d, mapLookup (buildTaxonMap m cs) k = some d →
        d.likelihoods = groupLikelihoods (p ++ cs) k ∧
        d.sources = groupSources (p ++ cs) k ∧ d.likelihoods ≠ []) := by
  intro cs
  induction cs with
  | nil =>
    intro m p hnd hsome _
    rw [buildTaxonMap]
    exact ⟨hnd, by simpa using hsome⟩
  | cons c cs ih =>
    intro m p hnd hsome hnone
    rw [buildTaxonMap]
    have happ : (p ++ [c]) ++ cs = p ++ c :: cs := by simp
    rcases hkey : candKey c with _ | k₀
    · -- key is falsy: the candidate is dropped
      have := ih m (p ++ [c]) hnd
        (fun k d hd => by
          rw [groupLikelihoods_append_miss p c k (by simp [hkey]),
            groupSources_append_miss p c k (by simp [hkey])]
          exact hsome k d hd)
        (fun k hd => by
          rw [groupLikelihoods_append_miss p c k (by simp [hkey])]
          exact hnone k hd)
      rwa [happ] at this
    · -- key k₀: insert into the map
      have hnd' : ((insertCandidate m k₀ c).map Prod.fst).Nodup := by
        by_cases hmem : k₀ ∈ m.map Prod.fst
        · rwa [insertCandidate_keys_of_mem m k₀ c hmem]
        · rw [insertCandidate_keys_of_not_mem m k₀ c hmem]
          simp [List.nodup_append, hnd, hmem]
      have hsome' : ∀ k d, mapLookup (insertCandidate m k₀ c) k = some d →
          d.likelihoods = groupLikelihoods (p ++ [c]) k ∧
          d.sources = groupSources (p ++ [c]) k ∧ d.likelihoods ≠ [] := by
        intro k d hd
        by_cases hkk : k = k₀
        · subst hkk
          rw [mapLookup_insert_same] at hd
          rcases hlk : mapLookup m k with _ | d₀
          · rw [hlk] at hd
            injection hd with hd
            subst hd
            have hgl : groupLikelihoods p k = [] := hnone k hlk
            have hfilter :
                List.filter (fun c' => decide (candKey c' = some k)) p = [] := by
              rcases hflt :
                  List.filter (fun c' => decide (candKey c' = some k)) p with
                _ | ⟨x, xs⟩
              · rfl
              · exfalso
                rw [groupLikelihoods, hflt] at hgl
                simp at hgl
            have hgs : groupSources p k = [] := by
              simp [groupSources, hfilter]
            rw [groupLikelihoods_append_hit p c k hkey,
              groupSources_append_hit p c k hkey, hgl, hgs]
            simp
          · rw [hlk] at hd
            injection hd with hd
            subst hd
            obtain ⟨h1, h2, _⟩ := hsome k d₀ hlk
            rw [groupLikelihoods_append_hit p c k hkey,
              groupSources_append_hit p c k hkey]
            simp [updData, h1, h2]
        · rw [mapLookup_insert_other m k₀ k c hkk] at hd
          rw [groupLikelihoods_append_miss p c k
              (by rw [hkey]; exact fun hcon => hkk (Option.some.inj hcon).symm),
            groupSources_append_miss p c k
              (by rw [hkey]; exact fun hcon => hkk (Option.some.inj hcon).symm)]
          exact hsome k d hd
      have hnone' : ∀ k, mapLookup (insertCandidate m k₀ c) k = none →
          groupLikelihoods (p ++ [c]) k = [] := by
        intro k hd
        by_cases hkk : k = k₀
        · subst hkk
          rw [mapLookup_insert_same] at hd
          exact absurd hd (by simp)
        · rw [mapLookup_insert_other m k₀ k c hkk] at hd
          rw [groupLikelihoods_append_miss p c k
            (by rw [hkey]; exact fun hcon => hkk (Option.some.inj hcon).symm)]
          exact hnone k hd
      have := ih (insertCandidate m k₀ c) (p ++ [c]) hnd' hsome' hnone'
      rwa [happ] at this

/-- C6: every merged candidate's `merged_likelihood` is the arithmetic
mean (not the maximum) of the likelihoods of all raw candidates sharing
its identity key, and `num_sources` is the number of those candidates. -/
theorem merge_candidates_mean (cands : List Candidate) :
    ∀ m ∈ merge_candidates cands, ∃ k,
      groupLikelihoods cands k ≠ [] ∧
      m.merged_likelihood = (groupLikelihoods cands k).sum /
        ((groupLikelihoods cands k).length : ℚ) ∧
      m.num_sources = (groupLikelihoods cands k).length := by
  intro m hm
  obtain ⟨⟨k, d⟩, hkd, rfl⟩ := List.mem_map.mp hm
  obtain ⟨hnd, hspec⟩ := buildTaxonMap_spec cands [] []
    (by simp) (by simp [mapLookup]) (by simp [groupLikelihoods])
  simp only [List.nil_append] at hspec
  have hlook := mapLookup_of_mem _ k d hnd hkd
  obtain ⟨h1, h2, h3⟩ := hspec k d hlook
  refine ⟨k, by rwa [← h1] , ?_, ?_⟩
  · simp only [h1]
  · have : d.sources.length = (groupLikelihoods cands k).length := by
      rw [h2]
      simp [groupSources, groupLikelihoods]
    simpa using this

/-- Candidate for the C6 witness: read-classifier hit on taxon 42 with
likelihood 0.8. -/
def candK1 : Candidate :=
  { source := "kraken2", taxid := some "42", name := some "X",
    confidence := some (8/10), likelihood := 8/10 }

/-- Candidate for the C6 witness: pairwise-alignment hit on the same taxon
with likelihood 0.6. -/
def candB1 : Candidate :=
  { source := "blast", taxid := some "42", name := some "X",
    likelihood := 6/10 }

/-- Witness for `merge_candidates_mean`: likelihoods 0.8 and 0.6 for the
same taxon id merge into a single candidate with the mean likelihood 0.7
(not the maximum 0.8) and `num_sources = 2`. -/
theorem merge_candidates_mean_witness :
    (merge_candidates [candK1, candB1]).map
        (fun m => (m.merged_likelihood, m.num_sources)) = [(7/10, 2)] ∧
    ∃ k, groupLikelihoods [candK1, candB1] k ≠ [] ∧
      ({ base := candK1, merged_likelihood := 7/10, num_sources := 2,
         all_sources := "kraken2,blast" } : MergedCandidate).merged_likelihood
        = (groupLikelihoods [candK1, candB1] k).sum /
          ((groupLikelihoods [candK1, candB1] k).length : ℚ) ∧
      ({ base := candK1, merged_likelihood := 7/10, num_sources := 2,
         all_sources := "kraken2,blast" } : MergedCandidate).num_sources
        = (groupLikelihoods [candK1, candB1] k).length := by
  constructor
  · norm_num +decide [merge_candidates, buildTaxonMap, insertCandidate,
      updData, candKey, nonFalsy, candK1, candB1]
  · exact merge_candidates_mean [candK1, candB1] _
      (by norm_num +decide [merge_candidates, buildTaxonMap, insertCandidate,
        updData, candKey, nonFalsy, candK1, candB1])

/-! ### C9: raising a likelihood never worsens the final posterior rank -/

lemma getD_map_fn (l : List ℚ) (f : ℚ → ℚ) (i : Nat) (h : i < l.length) :
    (l.map f).getD i 0 = f (l.getD i 0) := by
  rw [List.getD_eq_getElem _ _ (by simpa using h), List.getElem_map,
    List.getD_eq_getElem _ _ h]

lemma getD_zipWith_mul (f g : List ℚ) (i : Nat) (h1 : i < f.length)
    (h2 : i < g.length) :
    (List.zipWith (fun a b => a * b) f g).getD i 0 =
      f.getD i 0 * g.getD i 0 := by
  rw [List.getD_eq_getElem _ _
      (by simp [h1, h2] : i < (List.zipWith (fun a b => a * b) f g).length),
    List.getElem_zipWith, List.getD_eq_getElem _ _ h1,
    List.getD_eq_getElem _ _ h2]

lemma getD_mem_of_lt (l : List ℚ) (i : Nat) (h : i < l.length) :
    l.getD i 0 ∈ l := by
  rw [List.getD_eq_getElem _ _ h]
  exact List.getElem_mem h

lemma pos_elem_sum_pos (l : List ℚ) (x : ℚ) (hx : x ∈ l) (hpos : 0 < x)
    (hnn : ∀ y ∈ l, 0 ≤ y) : 0 < l.sum := by
  induction l with
  | nil => simp at hx
  | cons a l ih =>
    rcases List.mem_cons.mp hx with rfl | hx'
    · have : (0 : ℚ) ≤ l.sum :=
        List.sum_nonneg (fun y hy => hnn y (by simp [hy]))
      simp only [List.sum_cons]
      linarith
    · have ha : (0 : ℚ) ≤ a := hnn a (by simp)
      have : (0 : ℚ) < l.sum := ih hx' (fun y hy => hnn y (by simp [hy]))
      simp only [List.sum_cons]
      linarith

lemma length_filter_mono {α : Type} (l : List α) (p q : α → Bool)
    (h : ∀ a ∈ l, p a = true → q a = true) :
    (l.filter p).length ≤ (l.filter q).length := by
  induction l with
  | nil => simp
  | cons a l ih =>
    have hrest : ∀ b ∈ l, p b = true → q b = true :=
      fun b hb => h b (by simp [hb])
    by_cases hp : p a
    · rw [List.filter_cons_of_pos hp,
        List.filter_cons_of_pos (h a (by simp) hp)]
      simpa using ih hrest
    · rw [List.filter_cons_of_neg hp]
      by_cases hq : q a
      · rw [List.filter_cons_of_pos hq]
        exact le_trans (ih hrest) (by simp)
      · rw [List.filter_cons_of_neg hq]
        exact ih hrest

/-- Invariant carried by the prior tables of the EM loop, relative to the
fixed likelihood list: same length, non-negative entries, positive entries
wherever the likelihood is positive, and weakly monotone in the
likelihoods. -/
def PriorsInv (likes P : List ℚ) : Prop :=
  P.length = likes.length ∧
  (∀ x ∈ P, 0 ≤ x) ∧
  (∀ i, i < likes.length → 0 < likes.getD i 0 → 0 < P.getD i 0) ∧
  (∀ i j, i < likes.length → j < likes.length →
    likes.getD j 0 ≤ likes.getD i 0 → P.getD j 0 ≤ P.getD i 0)

/-- Strengthened invariant, established by every `em_step`: additionally
strictly monotone in the likelihoods. -/
def PriorsInvS (likes P : List ℚ) : Prop :=
  PriorsInv likes P ∧
  ∀ i j, i < likes.length → j < likes.length →
    likes.getD j 0 < likes.getD i 0 → P.getD j 0 < P.getD i 0

lemma initialize_priors_inv (likes : List ℚ) (hne : likes ≠ []) :
    PriorsInv likes (initialize_priors likes) := by
  have hN : 0 < likes.length := List.length_pos.mpr hne
  have hNQ : (0 : ℚ) < (likes.length : ℚ) := by exact_mod_cast hN
  refine ⟨length_initialize_priors likes, initialize_priors_nonneg likes,
    ?_, ?_⟩
  · intro i hiN _
    rw [initialize_priors, getD_map_fn likes _ i hiN]
    positivity
  · intro i j hiN hjN _
    rw [initialize_priors, getD_map_fn likes _ i hiN, getD_map_fn likes _ j hjN]

lemma em_step_inv (likes P : List ℚ) (hl : ∀ x ∈ likes, 0 ≤ x)
    (h : PriorsInv likes P) : PriorsInvS likes (em_step likes P) := by
  obtain ⟨hlen, hnnP, hpos, hmono⟩ := h
  have hulen : (List.zipWith (fun a b => a * b) likes P).length =
      likes.length := by
    simp [hlen]
  have hugetD : ∀ i, i < likes.length →
      (List.zipWith (fun a b => a * b) likes P).getD i 0 =
        likes.getD i 0 * P.getD i 0 := by
    intro i hi
    exact getD_zipWith_mul likes P i hi (by omega)
  have hunn : ∀ x ∈ List.zipWith (fun a b => a * b) likes P, 0 ≤ x :=
    zipWith_mul_nonneg likes P hl hnnP
  have hTnn : (0 : ℚ) ≤ (List.zipWith (fun a b => a * b) likes P).sum :=
    List.sum_nonneg hunn
  simp only [em_step]
  split
  · -- zero-total fallback: all likelihoods in range must be 0
    rename_i hT0
    have hz : ∀ i, i < likes.length → likes.getD i 0 = 0 := by
      intro i hi
      by_contra hcon
      have hlpos : 0 < likes.getD i 0 :=
        lt_of_le_of_ne (hl _ (getD_mem_of_lt likes i hi)) (Ne.symm hcon)
      have hPpos : 0 < P.getD i 0 := hpos i hi hlpos
      have hupos : 0 < (List.zipWith (fun a b => a * b) likes P).getD i 0 := by
        rw [hugetD i hi]
        positivity
      have := pos_elem_sum_pos _ _
        (getD_mem_of_lt _ i (by omega)) hupos hunn
      rw [hT0] at this
      exact lt_irrefl 0 this
    refine ⟨⟨by simp, ?_, ?_, ?_⟩, ?_⟩
    · intro x hx
      simp only [List.mem_map] at hx
      obtain ⟨_, _, rfl⟩ := hx
      exact div_nonneg zero_le_one (Nat.cast_nonneg _)
    · intro i hi hlpos
      rw [hz i hi] at hlpos
      exact absurd hlpos (lt_irrefl 0)
    · intro i j hiN hjN _
      rw [getD_map_fn likes _ i hiN, getD_map_fn likes _ j hjN]
    · intro i j hiN hjN hlt
      rw [hz i hiN, hz j hjN] at hlt
      exact absurd hlt (lt_irrefl 0)
  · -- normalized branch
    rename_i hT0
    have hTpos : (0 : ℚ) < (List.zipWith (fun a b => a * b) likes P).sum :=
      lt_of_le_of_ne hTnn (Ne.symm hT0)
    have hmaplen : ((List.zipWith (fun a b => a * b) likes P).map
        (fun u => u / (List.zipWith (fun a b => a * b) likes P).sum)).length
          = likes.length := by
      simp [hlen]
    have hgetD : ∀ i, i < likes.length →
        ((List.zipWith (fun a b => a * b) likes P).map
          (fun u => u / (List.zipWith (fun a b => a * b) likes P).sum)).getD
            i 0 =
          likes.getD i 0 * P.getD i 0 /
            (List.zipWith (fun a b => a * b) likes P).sum := by
      intro i hi
      rw [getD_map_fn _ _ i (by omega), hugetD i hi]
    refine ⟨⟨hmaplen, ?_, ?_, ?_⟩, ?_⟩
    · intro x hx
      simp only [List.mem_map] at hx
      obtain ⟨u, hu, rfl⟩ := hx
      exact div_nonneg (hunn u hu) hTnn
    · intro i hi hlpos
      rw [hgetD i hi]
      have hPpos : 0 < P.getD i 0 := hpos i hi hlpos
      positivity
    · intro i j hiN hjN hle
      rw [hgetD i hiN, hgetD j hjN]
      have hPle : P.getD j 0 ≤ P.getD i 0 := hmono i j hiN hjN hle
      have hPj : 0 ≤ P.getD j 0 := hnnP _ (getD_mem_of_lt P j (by omega))
      have hli : 0 ≤ likes.getD i 0 :=
        le_trans (hl _ (getD_mem_of_lt likes j hjN)) hle
      exact (div_le_div_iff_of_pos_right hTpos).mpr (mul_le_mul hle hPle hPj hli)
    · intro i j hiN hjN hlt
      rw [hgetD i hiN, hgetD j hjN]
      have hlj : 0 ≤ likes.getD j 0 := hl _ (getD_mem_of_lt likes j hjN)
      have hlipos : 0 < likes.getD i 0 := lt_of_le_of_lt hlj hlt
      have hPipos : 0 < P.getD i 0 := hpos i hiN hlipos
      have hmul : likes.getD j 0 * P.getD j 0 <
          likes.getD i 0 * P.getD i 0 := by
        rcases eq_or_lt_of_le hlj with heq | hljpos
        · rw [← heq, zero_mul]
          positivity
        · have hPjpos : 0 < P.getD j 0 := hpos j hjN hljpos
          have hPle : P.getD j 0 ≤ P.getD i 0 :=
            hmono i j hiN hjN (le_of_lt hlt)
          calc likes.getD j 0 * P.getD j 0
              < likes.getD i 0 * P.getD j 0 :=
                mul_lt_mul_of_pos_right hlt hPjpos
            _ ≤ likes.getD i 0 * P.getD i 0 :=
                mul_le_mul_of_nonneg_left hPle (le_of_lt hlipos)
      exact (div_lt_div_iff_of_pos_right hTpos).mpr hmul

lemma run_em_loop_inv (likes : List ℚ) (t : ℚ) (hl : ∀ x ∈ likes, 0 ≤ x) :
    ∀ fuel : Nat, 1 ≤ fuel → ∀ (priors : List ℚ) (done : Nat),
      PriorsInv likes priors →
      ∃ P k c, run_em_loop likes t priors fuel done = some (P, k, c) ∧
        PriorsInvS likes P := by
  intro fuel
  induction fuel with
  | zero => omega
  | succ fuel ih =>
    intro _ priors done hinv
    have hstep := em_step_inv likes priors hl hinv
    by_cases hconv : max_change (em_step likes priors) priors < t
    · refine ⟨em_step likes priors, done + 1, true, ?_, hstep⟩
      simp only [run_em_loop]
      rw [if_pos hconv]
    · by_cases hf : fuel = 0
      · refine ⟨em_step likes priors, done + 1, false, ?_, hstep⟩
        simp only [run_em_loop]
        rw [if_neg hconv, if_pos hf]
      · obtain ⟨P, k, c, hrun, hP⟩ :=
          ih (by omega) (em_step likes priors) (done + 1) hstep.1
        refine ⟨P, k, c, ?_, hP⟩
        simp only [run_em_loop]
        rw [if_neg hconv, if_neg hf]
        exact hrun

lemma run_em_algorithm_inv (likes : List ℚ) (m : Nat) (t : ℚ)
    (hne : likes ≠ []) (hl : ∀ x ∈ likes, 0 ≤ x) (hm : 1 ≤ m) :
    ∃ P k c, run_em_algorithm likes m t = some (P, k, c) ∧
      PriorsInvS likes P := by
  obtain ⟨P, k, c, hrun, hP⟩ := run_em_loop_inv likes t hl m hm
    (initialize_priors likes) 0 (initialize_priors_inv likes hne)
  refine ⟨P, k, c, ?_, hP⟩
  rw [run_em_algorithm, if_neg (by simpa [List.isEmpty_iff] using hne)]
  exact hrun

/-- The number of candidates strictly ahead of index `i` in the posterior
table `P` — the rank of `i` relative to the others (0 = top). -/
def rankAbove (P : List ℚ) (i : Nat) : Nat :=
  ((List.range P.length).filter
    (fun j => decide (P.getD i 0 < P.getD j 0))).length

/-- For a table satisfying the strong invariant, a candidate outranks `i`
exactly when its likelihood exceeds that of `i`, so the final rank depends
on the likelihoods alone. -/
lemma rankAbove_of_inv (likes P : List ℚ) (h : PriorsInvS likes P) (i : Nat)
    (hi : i < likes.length) :
    rankAbove P i = ((List.range likes.length).filter
      (fun j => decide (likes.getD i 0 < likes.getD j 0))).length := by
  obtain ⟨⟨hlen, _, _, hmono⟩, hstrict⟩ := h
  rw [rankAbove, hlen]
  congr 1
  apply List.filter_congr
  intro j hj
  have hjN : j < likes.length := List.mem_range.mp hj
  simp only [decide_eq_decide]
  constructor
  · intro hPij
    by_contra hcon
    push_neg at hcon
    exact absurd hPij (not_lt.mpr (hmono i j hi hjN hcon))
  · intro hlij
    exact hstrict j i hjN hi hlij

/-- C9 (amended): for non-negative merged likelihoods (which is what
well-formed classifier rows produce) and an iteration cap of at least 1,
increasing candidate `i`'s merged likelihood while all other likelihoods,
the cap and the convergence threshold stay fixed never decreases the rank
of candidate `i`'s final posterior returned by `run_em_algorithm`. -/
theorem run_em_rank_monotone (likes likes2 : List ℚ) (i m : Nat) (t : ℚ)
    (hlen : likes2.length = likes.length)
    (hi : i < likes.length)
    (hnn : ∀ x ∈ likes, 0 ≤ x)
    (hinc : likes.getD i 0 ≤ likes2.getD i 0)
    (hoth : ∀ j, j < likes.length → j ≠ i →
      likes2.getD j 0 = likes.getD j 0)
    (hne : likes ≠ []) (hm : 1 ≤ m) :
    ∃ P k c P2 k2 c2,
      run_em_algorithm likes m t = some (P, k, c) ∧
      run_em_algorithm likes2 m t = some (P2, k2, c2) ∧
      rankAbove P2 i ≤ rankAbove P i := by
  have hne2 : likes2 ≠ [] := by
    intro hcon
    rw [hcon] at hlen
    exact hne (List.length_eq_zero.mp hlen.symm)
  have hnn2 : ∀ x ∈ likes2, 0 ≤ x := by
    intro x hx
    obtain ⟨j, hj, rfl⟩ := List.mem_iff_getElem.mp hx
    rw [← List.getD_eq_getElem likes2 0 hj]
    by_cases hji : j = i
    · subst hji
      exact le_trans (hnn _ (getD_mem_of_lt likes j hi)) hinc
    · rw [hoth j (by omega) hji]
      exact hnn _ (getD_mem_of_lt likes j (by omega))
  obtain ⟨P, k, c, hrun, hP⟩ := run_em_algorithm_inv likes m t hne hnn hm
  obtain ⟨P2, k2, c2, hrun2, hP2⟩ :=
    run_em_algorithm_inv likes2 m t hne2 hnn2 hm
  refine ⟨P, k, c, P2, k2, c2, hrun, hrun2, ?_⟩
  rw [rankAbove_of_inv likes P hP i hi,
    rankAbove_of_inv likes2 P2 hP2 i (by omega), hlen]
  apply length_filter_mono
  intro j hj hdec
  have hjN : j < likes.length := List.mem_range.mp hj
  have hdec' := of_decide_eq_true hdec
  apply decide_eq_true
  by_cases hji : j = i
  · subst hji
    exact absurd hdec' (lt_irrefl _)
  · rw [hoth j hjN hji] at hdec'
    exact lt_of_le_of_lt hinc hdec'

/-- C9 counterexample: with a negative merged likelihood (reachable from a
BLAST row with a negative e-value, see
`em_step_posterior_negative_entry`), increasing candidate 0's likelihood
from `-1/2` to `-1/4`, with the other likelihood, the cap (1) and the
threshold (1e-6) fixed, worsens its final posterior rank from 0 to 1. -/
theorem run_em_rank_monotone_cex :
    run_em_algorithm [-1/2, 3/10] 1 (1/1000000) =
      some ([5/2, -3/2], 1, false) ∧
    run_em_algorithm [-1/4, 3/10] 1 (1/1000000) =
      some ([-5, 6], 1, false) ∧
    rankAbove [5/2, -3/2] 0 = 0 ∧
    rankAbove [-5, 6] 0 = 1 := by
  refine ⟨?_, ?_, ?_, ?_⟩ <;>
    norm_num [run_em_algorithm, run_em_loop, initialize_priors, em_step,
      max_change, rankAbove, List.range_succ, List.filter_cons,
      decide_eq_true_eq, List.getD_cons_zero, List.getD_cons_succ,
      abs_of_nonneg, abs_of_nonpos]

/-- Witness for `run_em_rank_monotone`: raising candidate 0's likelihood
from `1/10` to `3/10` with the second candidate fixed at `1/2`. -/
theorem run_em_rank_monotone_witness :
    ∃ P k c P2 k2 c2,
      run_em_algorithm [1/10, 1/2] 50 (1/1000000) = some (P, k, c) ∧
      run_em_algorithm [3/10, 1/2] 50 (1/1000000) = some (P2, k2, c2) ∧
      rankAbove P2 0 ≤ rankAbove P 0 :=
  run_em_rank_monotone [1/10, 1/2] [3/10, 1/2] 0 50 (1/1000000)
    (by norm_num) (by norm_num) (by norm_num)
    (by norm_num [List.getD_cons_zero])
    (by
      intro j hj hji
      have hj2 : j < 2 := by simpa using hj
      have hj1 : j = 1 := by omega
      subst hj1
      norm_num [List.getD_cons_succ, List.getD_cons_zero])
    (by simp) (by norm_num)

end NanoPulse
